import Mathlib

/-!
Verification of the region-index flattener in `list-regions.py`.

The program fetches a nested JSON catalog of geographic regions and prints
every region path as an indented list.  The core is the recursive `walk`
function:

  def walk(region, indent=0):
      path = region.get("path")
      if path:
          print("  " * indent + f"- {path}")
      for sub in region.get("subregions", []):
          walk(sub, indent + 1)

and the driver `main`:

  data = fetch_index()
  if not data:
      return 1
  for region in data.get("subregions", []):
      walk(region)
  return 0

We embed the JSON region documents as an inductive tree.  A node's
`subregions` field is one of: absent (`none`), present-but-null
(`some none`), or present as a sequence (`some (some l)`).  This mirrors
what `region.get("subregions", [])` can see: an absent key defaults to the
empty list, a null (non-sequence) value is returned as-is and raises a
TypeError when iterated, a sequence is iterated.  A node's `path` field is
`none` when absent (or null) and `some s` for a string value; the Python
truthiness test `if path:` emits only for a present, non-empty string.
-/

/-- A region node of the catalog document: an optional `path` string and a
`subregions` field that is absent, null, or a sequence of child nodes. -/
inductive Region : Type where
  | mk (path : Option String) (subregions : Option (Option (List Region)))

/-- The `path` field of a node (`region.get("path")`). -/
def Region.path : Region → Option String
  | .mk p _ => p

/-- The raw `subregions` field of a node. -/
def Region.subregions : Region → Option (Option (List Region))
  | .mk _ s => s

/-- `region.get("subregions", [])` followed by iteration: an absent key
defaults to the empty sequence, a present null value raises (`none`),
a sequence is iterated. -/
def getSubregions : Option (Option (List Region)) → Option (List Region)
  | none => some []
  | some none => none
  | some (some l) => some l

/-- The list of children a well-formed node exposes (absent and null both
mapped to the empty list; on well-formed trees null never occurs). -/
def subsList : Option (Option (List Region)) → List Region
  | none => []
  | some none => []
  | some (some l) => l

/-- The record the `if path:` guard of `walk` emits for one node at one
depth: one `(depth, path)` pair when `path` is a present non-empty string,
nothing otherwise. -/
def ownRecord : Option String → Nat → List (Nat × String)
  | some s, d => if s = "" then [] else [(d, s)]
  | none, _ => []

/-- `"  " * indent`: two spaces per depth level. -/
def indentStr : Nat → String
  | 0 => ""
  | n + 1 => "  " ++ indentStr n

/-- The line printed for a record: `"  " * indent + f"- {path}"`. -/
def renderLine (indent : Nat) (path : String) : String :=
  indentStr indent ++ ("- " ++ path)

mutual

/-- The record-level reading of `walk(region, indent)`: the sequence of
`(depth, path)` pairs the traversal emits (the spec's FlattenedRecord),
or `none` when iterating a null `subregions` value raises. -/
def flatten : Region → Nat → Option (List (Nat × String))
  | .mk p subs, d =>
    match subs with
    | none => some (ownRecord p d)
    | some none => none
    | some (some l) => (flattenList l (d + 1)).map (fun w => ownRecord p d ++ w)

/-- The records emitted by running `walk(sub, d)` over a sequence of
siblings in order. -/
def flattenList : List Region → Nat → Option (List (Nat × String))
  | [], _ => some []
  | r :: rs, d => do
    let a ← flatten r d
    let b ← flattenList rs d
    pure (a ++ b)

end

/-- Lines 27-29 of `walk`: `path = region.get("path"); if path: print(...)`.
The stdout stream after the conditional print. -/
def printStep (p : Option String) (indent : Nat) (out : List String) : List String :=
  match p with
  | some s => if s = "" then out else out ++ [renderLine indent s]
  | none => out

mutual

/-- The printing reading of `walk(region, indent)`: the stdout stream is
threaded explicitly, each `print` appends one line, and a TypeError from
iterating a null `subregions` value aborts the run (`none`). -/
def walk : Region → Nat → List String → Option (List String)
  | .mk p subs, indent, out =>
    let out1 := printStep p indent out
    match subs with
    | none => some out1
    | some none => none
    | some (some l) => walkList l (indent + 1) out1

/-- `for sub in ...: walk(sub, indent + 1)` over a sibling sequence,
threading the stdout stream. -/
def walkList : List Region → Nat → List String → Option (List String)
  | [], _, out => some out
  | r :: rs, indent, out => do
    let out2 ← walk r indent out
    walkList rs indent out2

end

/-- The fetched document seen by `main`: its `subregions` field (absent,
null, or a sequence) and the number of other keys in the dict (which only
matters for Python's truthiness test `if not data:`). -/
structure RootDoc : Type where
  subregions : Option (Option (List Region))
  extra : Nat

/-- Python truthiness of the document dict: non-empty, i.e. it has the
`subregions` key or at least one other key. -/
def RootDoc.truthy (doc : RootDoc) : Bool :=
  doc.subregions.isSome || doc.extra != 0

/-- `main`: on an absent (`None`) or falsy document return 1; otherwise
run `walk(region)` over `data.get("subregions", [])` at depth 0 and
return 0.  The result is `(exit code, printed lines)`, `none` when an
exception escapes. -/
def mainRun : Option RootDoc → Option (Nat × List String)
  | none => some (1, [])
  | some doc =>
    if doc.truthy then
      match getSubregions doc.subregions with
      | none => none
      | some l => (walkList l 0 []).map (fun out => (0, out))
    else some (1, [])

mutual

/-- Whether every `subregions` field present in the tree is a sequence
(the domain on which iteration never raises). -/
def wfRegion : Region → Bool
  | .mk _ none => true
  | .mk _ (some none) => false
  | .mk _ (some (some l)) => wfList l

/-- `wfRegion` over a sibling sequence. -/
def wfList : List Region → Bool
  | [] => true
  | r :: rs => wfRegion r && wfList rs

end

mutual

/-- Modelled from the spec: `Visit(node, depth)` — emit `(depth, path)`
when the path is present and non-empty, then visit each child at
`depth + 1`; the total record sequence of one subtree. -/
def visitSpec : Region → Nat → List (Nat × String)
  | .mk p none, d => ownRecord p d
  | .mk p (some none), d => ownRecord p d
  | .mk p (some (some l)), d => ownRecord p d ++ visitSpecList l (d + 1)

/-- Modelled from the spec: visiting a sequence of siblings in order. -/
def visitSpecList : List Region → Nat → List (Nat × String)
  | [], _ => []
  | r :: rs, d => visitSpec r d ++ visitSpecList rs d

end

mutual

/-- Number of nodes in a subtree whose path is present and non-empty. -/
def emitCount : Region → Nat
  | .mk p none => (ownRecord p 0).length
  | .mk p (some none) => (ownRecord p 0).length
  | .mk p (some (some l)) => (ownRecord p 0).length + emitCountList l

/-- `emitCount` summed over a sibling sequence. -/
def emitCountList : List Region → Nat
  | [] => 0
  | r :: rs => emitCount r + emitCountList rs

end

mutual

/-- Follow a list of child indices down from a node (`[]` addresses the
node itself). -/
def descend : Region → List Nat → Option Region
  | r, [] => some r
  | .mk _ none, _ :: _ => none
  | .mk _ (some none), _ :: _ => none
  | .mk _ (some (some l)), i :: is => descendList l i is

/-- Pick the `i`-th sibling and keep descending. -/
def descendList : List Region → Nat → List Nat → Option Region
  | [], _, _ => none
  | r :: _, 0, is => descend r is
  | _ :: rs, i + 1, is => descendList rs i is

end

/-- Address a node from the top-level sequence: the first index picks the
top-level node, the rest descend; for address `i :: is` the node has
`is.length` ancestors excluding the root container. -/
def descendTop (l : List Region) : List Nat → Option Region
  | [] => none
  | i :: is => descendList l i is

mutual

/-- Height of a region subtree (number of nodes on the longest
root-to-leaf chain, counting null/absent subregions as no children). -/
def height : Region → Nat
  | .mk _ none => 1
  | .mk _ (some none) => 1
  | .mk _ (some (some l)) => heightList l + 1

/-- Maximum height over a sibling sequence. -/
def heightList : List Region → Nat
  | [] => 0
  | r :: rs => max (height r) (heightList rs)

end

mutual

/-- `flatten` with an explicit recursion-depth budget: the outer `Option`
is `none` when the budget is exhausted before the traversal finishes, the
inner `Option` is the TypeError escape of `flatten` itself. -/
def flattenFuel : Nat → Region → Nat → Option (Option (List (Nat × String)))
  | 0, _, _ => none
  | fuel + 1, .mk p subs, d =>
    match subs with
    | none => some (some (ownRecord p d))
    | some none => some none
    | some (some l) =>
      (flattenFuelList fuel l (d + 1)).map (fun w => w.map (fun v => ownRecord p d ++ v))
termination_by fuel r d => (fuel, 0)

/-- `flattenFuel` over a sibling sequence, all siblings sharing the same
remaining budget (the budget models call-stack depth, not total work). -/
def flattenFuelList : Nat → List Region → Nat → Option (Option (List (Nat × String)))
  | _, [], _ => some (some [])
  | fuel, r :: rs, d =>
    match flattenFuel fuel r d with
    | none => none
    | some none => some none
    | some (some a) =>
      match flattenFuelList fuel rs d with
      | none => none
      | some none => some none
      | some (some b) => some (some (a ++ b))
termination_by fuel l d => (fuel, l.length + 1)

end

/-! ## Shared lemmas -/

theorem flatten_wf_eq :
    ∀ r d, wfRegion r = true → flatten r d = some (visitSpec r d) := by
  intro r d
  refine flatten.induct
    (fun r d => wfRegion r = true → flatten r d = some (visitSpec r d))
    (fun l d => wfList l = true → flattenList l d = some (visitSpecList l d))
    ?_ ?_ ?_ ?_ ?_ r d
  · intro p d _
    simp [flatten, visitSpec]
  · intro p d h
    simp [wfRegion] at h
  · intro p d l ih h
    simp [wfRegion] at h
    simp [flatten, visitSpec, ih h]
  · intro d _
    simp [flattenList, visitSpecList]
  · intro r rs d ih1 ih2 h
    simp [wfList, Bool.and_eq_true] at h
    simp [flattenList, visitSpecList, ih1 h.1, ih2 h.2]

theorem flattenList_wf_eq :
    ∀ l d, wfList l = true → flattenList l d = some (visitSpecList l d) := by
  intro l
  induction l with
  | nil =>
    intro d _
    simp [flattenList, visitSpecList]
  | cons r rs ih =>
    intro d h
    simp [wfList, Bool.and_eq_true] at h
    simp [flattenList, visitSpecList, flatten_wf_eq r d h.1, ih d h.2]

theorem printStep_eq (p : Option String) (d : Nat) (out : List String) :
    printStep p d out = out ++ (ownRecord p d).map (fun x => renderLine x.1 x.2) := by
  cases p with
  | none => simp [printStep, ownRecord]
  | some s => by_cases h : s = "" <;> simp [printStep, ownRecord, h]

theorem walk_eq_flatten :
    ∀ r d out, walk r d out
      = (flatten r d).map (fun w => out ++ w.map (fun x => renderLine x.1 x.2)) := by
  intro r d out
  refine flatten.induct
    (fun r d => ∀ out, walk r d out
      = (flatten r d).map (fun w => out ++ w.map (fun x => renderLine x.1 x.2)))
    (fun l d => ∀ out, walkList l d out
      = (flattenList l d).map (fun w => out ++ w.map (fun x => renderLine x.1 x.2)))
    ?_ ?_ ?_ ?_ ?_ r d out
  · intro p d out
    simp [walk, flatten, printStep_eq]
  · intro p d out
    simp [walk, flatten]
  · intro p d l ih out
    cases h : flattenList l (d + 1) with
    | none => simp [walk, flatten, ih, h]
    | some w => simp [walk, flatten, ih, h, printStep_eq]
  · intro d out
    simp [walkList, flattenList]
  · intro r rs d ih1 ih2 out
    cases h1 : flatten r d with
    | none => simp [walkList, flattenList, ih1, h1]
    | some a =>
      cases h2 : flattenList rs d with
      | none => simp [walkList, flattenList, ih1, ih2, h1, h2]
      | some b => simp [walkList, flattenList, ih1, ih2, h1, h2]

theorem walkList_eq_flattenList :
    ∀ l d out, walkList l d out
      = (flattenList l d).map (fun w => out ++ w.map (fun x => renderLine x.1 x.2)) := by
  intro l
  induction l with
  | nil =>
    intro d out
    simp [walkList, flattenList]
  | cons r rs ih =>
    intro d out
    cases h1 : flatten r d with
    | none => simp [walkList, flattenList, walk_eq_flatten, h1]
    | some a =>
      cases h2 : flattenList rs d with
      | none => simp [walkList, flattenList, walk_eq_flatten, ih, h1, h2]
      | some b => simp [walkList, flattenList, walk_eq_flatten, ih, h1, h2]

theorem ownRecord_mem :
    ∀ p d k s, (k, s) ∈ ownRecord p d → p = some s ∧ s ≠ "" ∧ k = d := by
  intro p d k s h
  cases p with
  | none => simp [ownRecord] at h
  | some t =>
    by_cases ht : t = "" <;> simp [ownRecord, ht] at h
    exact ⟨by rw [h.2], by rw [h.2]; exact ht, h.1⟩

theorem ownRecord_length :
    ∀ p d e, (ownRecord p d).length = (ownRecord p e).length := by
  intro p d e
  cases p with
  | none => simp [ownRecord]
  | some t => by_cases ht : t = "" <;> simp [ownRecord, ht]

theorem visitSpecList_eq_join :
    ∀ l d, visitSpecList l d = (l.map (fun c => visitSpec c d)).flatten := by
  intro l
  induction l with
  | nil => intro d; simp [visitSpecList]
  | cons r rs ih => intro d; simp [visitSpecList, ih]

theorem visitSpec_length :
    ∀ r d, (visitSpec r d).length = emitCount r := by
  intro r d
  refine visitSpec.induct
    (fun r d => (visitSpec r d).length = emitCount r)
    (fun l d => (visitSpecList l d).length = emitCountList l)
    ?_ ?_ ?_ ?_ ?_ r d
  · intro p d
    simp [visitSpec, emitCount, ownRecord_length p d 0]
  · intro p d
    simp [visitSpec, emitCount, ownRecord_length p d 0]
  · intro p l d ih
    simp [visitSpec, emitCount, ownRecord_length p d 0, ih]
  · intro d
    simp [visitSpecList, emitCountList]
  · intro r rs d ih1 ih2
    simp [visitSpecList, emitCountList, ih1, ih2]

theorem visitSpecList_length :
    ∀ l d, (visitSpecList l d).length = emitCountList l := by
  intro l
  induction l with
  | nil => intro d; simp [visitSpecList, emitCountList]
  | cons r rs ih => intro d; simp [visitSpecList, emitCountList, visitSpec_length, ih]

theorem visitSpecList_mem_descend :
    ∀ l d k s, (k, s) ∈ visitSpecList l d →
      ∃ i is n, descendList l i is = some n ∧ n.path = some s ∧ s ≠ "" ∧
        d + is.length = k := by
  intro l d k s h
  refine visitSpecList.induct
    (fun r d => ∀ k s, (k, s) ∈ visitSpec r d →
      ∃ a n, descend r a = some n ∧ n.path = some s ∧ s ≠ "" ∧ d + a.length = k)
    (fun l d => ∀ k s, (k, s) ∈ visitSpecList l d →
      ∃ i is n, descendList l i is = some n ∧ n.path = some s ∧ s ≠ "" ∧
        d + is.length = k)
    ?_ ?_ ?_ ?_ ?_ l d k s h
  · intro p d k s hm
    rw [visitSpec] at hm
    obtain ⟨hp, hs, hk⟩ := ownRecord_mem p d k s hm
    exact ⟨[], .mk p none, rfl, by rw [hp, Region.path], hs, by simp [hk]⟩
  · intro p d k s hm
    rw [visitSpec] at hm
    obtain ⟨hp, hs, hk⟩ := ownRecord_mem p d k s hm
    exact ⟨[], .mk p (some none), rfl, by rw [hp, Region.path], hs, by simp [hk]⟩
  · intro p l d ih k s hm
    rw [visitSpec] at hm
    rcases List.mem_append.mp hm with hown | hsub
    · obtain ⟨hp, hs, hk⟩ := ownRecord_mem p d k s hown
      exact ⟨[], .mk p (some (some l)), rfl, by rw [hp, Region.path], hs, by simp [hk]⟩
    · obtain ⟨i, is, n, hd, hp, hs, hk⟩ := ih k s hsub
      exact ⟨i :: is, n, by rw [descend]; exact hd, hp, hs, by simp at hk ⊢; omega⟩
  · intro d k s hm
    simp [visitSpecList] at hm
  · intro r rs d ih1 ih2 k s hm
    rw [visitSpecList] at hm
    rcases List.mem_append.mp hm with hl | hr
    · obtain ⟨a, n, hd, hp, hs, hk⟩ := ih1 k s hl
      exact ⟨0, a, n, by rw [descendList]; exact hd, hp, hs, hk⟩
    · obtain ⟨i, is, n, hd, hp, hs, hk⟩ := ih2 k s hr
      exact ⟨i + 1, is, n, by rw [descendList]; exact hd, hp, hs, hk⟩

theorem flatten_map_wf :
    ∀ l d, wfList l = true →
      l.map (fun c => flatten c d) = (l.map (fun c => visitSpec c d)).map some := by
  intro l
  induction l with
  | nil => intro d _; simp
  | cons r rs ih =>
    intro d h
    simp [wfList, Bool.and_eq_true] at h
    simp [flatten_wf_eq r d h.1, ih d h.2]

theorem flatten_isSome_wf : ∀ r d, (flatten r d).isSome = wfRegion r := by
  intro r d
  refine flatten.induct (fun r d => (flatten r d).isSome = wfRegion r)
    (fun l d => (flattenList l d).isSome = wfList l) ?_ ?_ ?_ ?_ ?_ r d
  · intro p d
    simp [flatten, wfRegion]
  · intro p d
    simp [flatten, wfRegion]
  · intro p d l ih
    simp only [wfRegion]
    rw [← ih]
    cases h : flattenList l (d + 1) <;> simp [flatten, h]
  · intro d
    simp [flattenList, wfList]
  · intro r rs d ih1 ih2
    simp only [wfList]
    rw [← ih1, ← ih2]
    cases h1 : flatten r d <;> cases h2 : flattenList rs d <;>
      simp [flattenList, h1, h2]

/-! ## Concrete inputs from the spec's scenarios -/

/-- Scenario B top-level sequence: one continent `europe` with one
subregion `europe/albania`. -/
def scenarioB : List Region :=
  [Region.mk (some "europe")
    (some (some [Region.mk (some "europe/albania") (some (some []))]))]

/-- Scenario C top-level sequence: one organizational node with no `path`
and two children with paths `a` and `b`. -/
def scenarioC : List Region :=
  [Region.mk none
    (some (some [Region.mk (some "a") none, Region.mk (some "b") none]))]

/-! ## Claims -/

/-- C1, counterexample: a fetched document that is present and well-formed
with zero top-level regions — the empty dict, whose `subregions` field is
absent and which has no other key — makes `main` return 1, not the success
signal 0: Python's `if not data:` treats the empty dict like `None`. -/
theorem main_empty_doc_returns_one :
    mainRun (some (RootDoc.mk none 0)) = some (1, []) ∧
    subsList (RootDoc.mk none 0).subregions = [] :=
  ⟨rfl, rfl⟩

/-- C1, amended: a present well-formed document with zero top-level
regions completes with success (`main` returns 0) and emits no records
provided the document dict is truthy — its `subregions` field is present
(as an empty sequence) or it has some other key; an absent (`None`)
document returns 1, and so does the present-but-empty dict, which the
truthiness test cannot tell apart from an absent one. -/
theorem main_zero_regions :
    (∀ subs extra, subs = some (some []) ∨ (subs = none ∧ extra ≠ 0) →
      mainRun (some (RootDoc.mk subs extra)) = some (0, [])) ∧
    mainRun none = some (1, []) ∧
    mainRun (some (RootDoc.mk none 0)) = some (1, []) := by
  refine ⟨?_, rfl, rfl⟩
  intro subs extra h
  rcases h with h | ⟨h1, h2⟩
  · subst h
    simp [mainRun, RootDoc.truthy, getSubregions, walkList]
  · subst h1
    simp [mainRun, RootDoc.truthy, getSubregions, walkList, h2]

theorem main_zero_regions_witness :
    mainRun (some (RootDoc.mk (some (some [])) 7)) = some (0, []) :=
  main_zero_regions.1 (some (some [])) 7 (Or.inl rfl)

/-- C2: every record emitted by flattening a well-formed top-level
sequence carries a depth equal to the number of ancestor nodes (excluding
the root container) on the path from the root to the record's node: the
node sits at an address `a` (first index picks the top-level node, the
rest descend) with `a.length = depth + 1`, i.e. `depth` ancestors below
the root plus the node itself. -/
theorem flatten_depth_ancestors :
    ∀ (l : List Region) (w : List (Nat × String)), wfList l = true →
      flattenList l 0 = some w →
      ∀ k s, (k, s) ∈ w →
        ∃ a n, descendTop l a = some n ∧ n.path = some s ∧ s ≠ "" ∧
          a.length = k + 1 := by
  intro l w hwf hfl k s hm
  rw [flattenList_wf_eq l 0 hwf] at hfl
  obtain rfl : visitSpecList l 0 = w := by injection hfl
  obtain ⟨i, is, n, hd, hp, hs, hk⟩ := visitSpecList_mem_descend l 0 k s hm
  refine ⟨i :: is, n, ?_, hp, hs, ?_⟩
  · rw [descendTop]
    exact hd
  · simp at hk
    simp [hk]

theorem flatten_depth_ancestors_witness :
    ∃ a n, descendTop scenarioC a = some n ∧ n.path = some "a" ∧
      ("a" : String) ≠ "" ∧ a.length = 1 + 1 :=
  flatten_depth_ancestors scenarioC [(1, "a"), (1, "b")] rfl rfl 1 "a"
    (by simp)

/-- C3: the flattening is a pre-order depth-first traversal — a node's own
record (when its path is non-empty) precedes every record of its
descendants, and the records of the children's subtrees appear as the
concatenation, in sibling order, of each child's own record block. -/
theorem flatten_preorder_blocks :
    ∀ p subs d, wfRegion (Region.mk p subs) = true →
      ∃ blocks : List (List (Nat × String)),
        (subsList subs).map (fun c => flatten c (d + 1)) = blocks.map some ∧
        flatten (Region.mk p subs) d = some (ownRecord p d ++ blocks.flatten) := by
  intro p subs d hwf
  refine ⟨(subsList subs).map (fun c => visitSpec c (d + 1)), ?_, ?_⟩
  · cases subs with
    | none => simp [subsList]
    | some o =>
      cases o with
      | none => simp [wfRegion] at hwf
      | some l =>
        simpa [subsList] using flatten_map_wf l (d + 1) (by simpa [wfRegion] using hwf)
  · cases subs with
    | none => simp [flatten, subsList]
    | some o =>
      cases o with
      | none => simp [wfRegion] at hwf
      | some l =>
        have hl : wfList l = true := by simpa [wfRegion] using hwf
        simp [flatten, flattenList_wf_eq l (d + 1) hl, subsList,
          visitSpecList_eq_join]

theorem flatten_preorder_blocks_witness :
    ∃ blocks : List (List (Nat × String)),
      (subsList (Region.mk (some "europe")
          (some (some [Region.mk (some "europe/albania") (some (some []))]))).subregions).map
        (fun c => flatten c (0 + 1)) = blocks.map some ∧
      flatten (Region.mk (some "europe")
          (some (some [Region.mk (some "europe/albania") (some (some []))]))) 0
        = some (ownRecord (some "europe") 0 ++ blocks.flatten) :=
  flatten_preorder_blocks (some "europe")
    (some (some [Region.mk (some "europe/albania") (some (some []))])) 0 rfl

/-- C4: a node emits a record `(depth, path)` if and only if its path is
present and non-empty — an absent or empty path contributes zero records
(`ownRecord` is empty exactly then) — and its children are still visited
at `depth + 1` relative to it. -/
theorem flatten_emit_iff_path :
    ∀ p subs d, wfRegion (Region.mk p subs) = true →
      ∃ w, flattenList (subsList subs) (d + 1) = some w ∧
        flatten (Region.mk p subs) d = some (ownRecord p d ++ w) ∧
        (ownRecord p d = [] ↔ (p = none ∨ p = some "")) ∧
        (∀ s, p = some s → s ≠ "" → ownRecord p d = [(d, s)]) := by
  intro p subs d hwf
  have hown1 : ownRecord p d = [] ↔ (p = none ∨ p = some "") := by
    cases p with
    | none => simp [ownRecord]
    | some t => by_cases ht : t = "" <;> simp [ownRecord, ht]
  have hown2 : ∀ s, p = some s → s ≠ "" → ownRecord p d = [(d, s)] := by
    intro s hp hs
    subst hp
    simp [ownRecord, hs]
  cases subs with
  | none =>
    exact ⟨[], by simp [subsList, flattenList], by simp [flatten], hown1, hown2⟩
  | some o =>
    cases o with
    | none => simp [wfRegion] at hwf
    | some l =>
      have hl : wfList l = true := by simpa [wfRegion] using hwf
      exact ⟨visitSpecList l (d + 1),
        by simpa [subsList] using flattenList_wf_eq l (d + 1) hl,
        by simp [flatten, flattenList_wf_eq l (d + 1) hl], hown1, hown2⟩

theorem flatten_emit_iff_path_witness :
    ∃ w, flattenList (subsList (some (some [Region.mk (some "a") none,
        Region.mk (some "b") none]))) (0 + 1) = some w ∧
      flatten (Region.mk none (some (some [Region.mk (some "a") none,
        Region.mk (some "b") none]))) 0 = some (ownRecord none 0 ++ w) ∧
      (ownRecord none 0 = [] ↔ ((none : Option String) = none ∨
        (none : Option String) = some "")) ∧
      (∀ s, (none : Option String) = some s → s ≠ "" →
        ownRecord none 0 = [(0, s)]) :=
  flatten_emit_iff_path none
    (some (some [Region.mk (some "a") none, Region.mk (some "b") none])) 0 rfl

/-- C5: on a well-formed top-level sequence the flattening emits exactly
as many records as there are nodes with a present non-empty path. -/
theorem flatten_record_count :
    ∀ l w, wfList l = true → flattenList l 0 = some w →
      w.length = emitCountList l := by
  intro l w hwf h
  rw [flattenList_wf_eq l 0 hwf] at h
  obtain rfl : visitSpecList l 0 = w := by injection h
  exact visitSpecList_length l 0

theorem flatten_record_count_witness :
    ([((0 : Nat), "europe"), (1, "europe/albania")]).length
      = emitCountList scenarioB :=
  flatten_record_count scenarioB [(0, "europe"), (1, "europe/albania")] rfl rfl

/-- C6: a node whose `subregions` field is missing is treated as having
zero children — flattening it emits just its own record (when the path is
non-empty), behaves exactly like a node with an explicit empty child
sequence, and the printing walk completes without error. -/
theorem flatten_missing_subregions :
    ∀ p d, flatten (Region.mk p none) d = some (ownRecord p d) ∧
      flatten (Region.mk p none) d = flatten (Region.mk p (some (some []))) d ∧
      (∀ out, walk (Region.mk p none) d out = some (printStep p d out)) := by
  intro p d
  refine ⟨by simp [flatten], ?_, fun out => by simp [walk]⟩
  simp [flatten, flattenList]

/-- C7: each record renders as one line of two spaces per depth level,
then `"- "`, then the path — depth 2 renders with four leading spaces —
and the Scenario B tree prints the line `- europe` followed by the line
`  - europe/albania`. -/
theorem render_records :
    (∀ s, renderLine 2 s = "    " ++ ("- " ++ s)) ∧
    walkList scenarioB 0 [] = some ["- europe", "  - europe/albania"] := by
  constructor
  · intro s
    rfl
  · rfl

/-- C8: the zero-children default applies only to an absent `subregions`
key — a node whose `subregions` is present but null makes `walk` fail when
it iterates the value, and `walk` completes for precisely the trees in
which every present `subregions` value is a sequence. -/
theorem walk_null_subregions :
    (∀ p d out, walk (Region.mk p (some none)) d out = none) ∧
    (∀ r d out, (walk r d out).isSome = wfRegion r) := by
  constructor
  · intro p d out
    simp [walk]
  · intro r d out
    rw [walk_eq_flatten, ← flatten_isSome_wf r d]
    cases h : flatten r d <;> simp [h]

/-- C9: the traversal is a bounded terminating recursion — on any finite
tree, a recursion-depth budget of at least the tree's height makes the
budgeted traversal finish with exactly the unbudgeted result. -/
theorem walk_terminates :
    ∀ r d fuel, height r ≤ fuel → flattenFuel fuel r d = some (flatten r d) := by
  intro r d fuel h
  refine flatten.induct
    (fun r d => ∀ fuel, height r ≤ fuel → flattenFuel fuel r d = some (flatten r d))
    (fun l d => ∀ fuel, heightList l ≤ fuel →
      flattenFuelList fuel l d = some (flattenList l d))
    ?_ ?_ ?_ ?_ ?_ r d fuel h
  · intro p d fuel h
    cases fuel with
    | zero => simp [height] at h
    | succ f => simp [flattenFuel, flatten]
  · intro p d fuel h
    cases fuel with
    | zero => simp [height] at h
    | succ f => simp [flattenFuel, flatten]
  · intro p d l ih fuel h
    cases fuel with
    | zero => simp [height] at h
    | succ f =>
      simp [height] at h
      simp [flattenFuel, flatten, ih f h]
  · intro d fuel _
    cases fuel with
    | zero => simp [flattenFuelList, flattenList]
    | succ f => simp [flattenFuelList, flattenList]
  · intro r rs d ih1 ih2 fuel h
    simp [heightList] at h
    obtain ⟨hr, hrs⟩ := h
    cases h1 : flatten r d with
    | none => simp [flattenFuelList, flattenList, ih1 fuel hr, h1]
    | some a =>
      cases h2 : flattenList rs d with
      | none => simp [flattenFuelList, flattenList, ih1 fuel hr, ih2 fuel hrs, h1, h2]
      | some b => simp [flattenFuelList, flattenList, ih1 fuel hr, ih2 fuel hrs, h1, h2]

theorem walk_terminates_witness :
    flattenFuel 3 (Region.mk (some "europe")
        (some (some [Region.mk (some "europe/albania") (some (some []))]))) 0
      = some (flatten (Region.mk (some "europe")
        (some (some [Region.mk (some "europe/albania") (some (some []))]))) 0) :=
  walk_terminates (Region.mk (some "europe")
    (some (some [Region.mk (some "europe/albania") (some (some []))]))) 0 3
    (by decide)

/-- C10: the traversal is deterministic and pure — the printed stream is a
function of the tree and the start depth alone, only appended to the prior
stream, and running the walk twice on the same tree appends the same
rendered record block twice (byte-identical sequences). -/
theorem walk_pure_deterministic :
    (∀ r d out, walk r d out
      = (flatten r d).map (fun w => out ++ w.map (fun x => renderLine x.1 x.2))) ∧
    (∀ r d, (walk r d []).bind (walk r d)
      = (flatten r d).map (fun w =>
          w.map (fun x => renderLine x.1 x.2)
            ++ w.map (fun x => renderLine x.1 x.2))) := by
  constructor
  · exact walk_eq_flatten
  · intro r d
    cases h : flatten r d with
    | none => simp [walk_eq_flatten, h]
    | some w => simp [walk_eq_flatten, h]
